import Mathlib

/-!
Verification of the MachO-Kit core layer (src/libMachO/Core/core.c):
checked address arithmetic, range containment, byte-order swapping and the
type-runtime dispatch chain, shallowly embedded in Lean.

Machine integers (mk_vm_address_t, mk_vm_size_t, mk_vm_offset_t, all
unsigned 64-bit) are modelled as Nat together with explicit bound
hypotheses; wrapping additions carry an explicit `% 2^64`.
-/

namespace MachOKit

/-- Modelled from the spec: Address, Size and Offset are unsigned
fixed-width (64-bit) integers; their maxima come from the missing header
(MK_VM_ADDRESS_MAX). -/
def MK_VM_ADDRESS_MAX : Nat := 2 ^ 64 - 1

/-- Modelled from the spec: maximum representable Size (MK_VM_SIZE_MAX in
the missing header), same width as Address. -/
def MK_VM_SIZE_MAX : Nat := 2 ^ 64 - 1

/-- Modelled from the spec: the closed set of error kinds of mk_error_t
(the enumeration lives in the missing header; the kinds and their meaning
are listed in the spec and used by name throughout core.c). -/
inductive mk_error_t where
  | MK_ESUCCESS
  | MK_ECLIENT_ERROR
  | MK_ECLIENT_INVALID_RESULT
  | MK_EINTERNAL_ERROR
  | MK_EINVAL
  | MK_EINVALID_DATA
  | MK_ENOT_FOUND
  | MK_EUNAVAILABLE
  | MK_EOUT_OF_RANGE
  | MK_EOVERFLOW
  | MK_EUNDERFLOW
  | MK_EBAD_ACCESS
  deriving DecidableEq

/-- mk_vm_range_t: a (location, length) pair. -/
structure mk_vm_range_t where
  location : Nat
  length : Nat
  deriving DecidableEq

/-- mk_vm_range_make (core.c:73-80). -/
def mk_vm_range_make (location : Nat) (length : Nat) : mk_vm_range_t :=
  { location := location, length := length }

/-- mk_vm_address_apply_offset (core.c:131-142).  The C function reports
the result through an out-pointer and returns an error code; here the two
are fused into an Except value.  The C addition wraps at 2^64, hence the
explicit mod. -/
def mk_vm_address_apply_offset (addr : Nat) (offset : Nat) : Except mk_error_t Nat :=
  if MK_VM_ADDRESS_MAX - offset < addr then
    .error .MK_EOVERFLOW
  else
    .ok ((addr + offset) % 2 ^ 64)

/-- mk_vm_address_add (core.c:145-156). -/
def mk_vm_address_add (addr1 : Nat) (addr2 : Nat) : Except mk_error_t Nat :=
  if MK_VM_ADDRESS_MAX - addr2 < addr1 then
    .error .MK_EOVERFLOW
  else
    .ok ((addr1 + addr2) % 2 ^ 64)

/-- mk_vm_address_substract (core.c:159-170).  Unsigned subtraction never
wraps here because it is guarded by the underflow check, so Nat truncated
subtraction coincides with the C result. -/
def mk_vm_address_substract (left : Nat) (right : Nat) : Except mk_error_t Nat :=
  if right > left then
    .error .MK_EUNDERFLOW
  else
    .ok (left - right)

/-- mk_vm_address_check_length (core.c:173-180). -/
def mk_vm_address_check_length (addr : Nat) (length : Nat) : mk_error_t :=
  if MK_VM_SIZE_MAX - length < addr then .MK_EOVERFLOW else .MK_ESUCCESS

/-- mk_vm_range_contains_address (core.c:83-97).  The C code first applies
the offset to the address (propagating any error), then checks the range
sum for overflow, then compares. -/
def mk_vm_range_contains_address (range : mk_vm_range_t) (offset : Nat)
    (address : Nat) : mk_error_t :=
  match mk_vm_address_apply_offset address offset with
  | .error err => err
  | .ok address =>
    if MK_VM_SIZE_MAX - range.length < range.location then
      .MK_EOVERFLOW
    else if address < range.location ∨
        address ≥ (range.location + range.length) % 2 ^ 64 then
      .MK_ENOT_FOUND
    else
      .MK_ESUCCESS

/-- mk_vm_range_contains_range (core.c:100-124).  `part` is the C
parameter selecting the permissive any-overlap mode. -/
def mk_vm_range_contains_range (outer_range : mk_vm_range_t)
    (inner_range : mk_vm_range_t) (part : Bool) : mk_error_t :=
  if MK_VM_SIZE_MAX - outer_range.length < outer_range.location then
    .MK_EOVERFLOW
  else if MK_VM_SIZE_MAX - inner_range.length < inner_range.location then
    .MK_EOVERFLOW
  else if part then
    if inner_range.location < outer_range.location ∧
        (inner_range.location + inner_range.length) % 2 ^ 64 <
          outer_range.location then
      .MK_ENOT_FOUND
    else if inner_range.location >
        (outer_range.location + outer_range.length) % 2 ^ 64 then
      .MK_ENOT_FOUND
    else
      .MK_ESUCCESS
  else
    if inner_range.location < outer_range.location then
      .MK_ENOT_FOUND
    else if (inner_range.location + inner_range.length) % 2 ^ 64 >
        (outer_range.location + outer_range.length) % 2 ^ 64 then
      .MK_ENOT_FOUND
    else
      .MK_ESUCCESS

/-- Reduction of mk_vm_range_contains_range when neither range's
location + length sum overflows: the guards pass and the wrapping
additions are exact. -/
lemma contains_range_no_overflow (outer inner : mk_vm_range_t) (part : Bool)
    (ho : outer.location + outer.length < 2 ^ 64)
    (hi : inner.location + inner.length < 2 ^ 64) :
    mk_vm_range_contains_range outer inner part =
      if part then
        (if inner.location < outer.location ∧
            inner.location + inner.length < outer.location then
          mk_error_t.MK_ENOT_FOUND
         else if inner.location > outer.location + outer.length then
          mk_error_t.MK_ENOT_FOUND
         else mk_error_t.MK_ESUCCESS)
      else
        (if inner.location < outer.location then mk_error_t.MK_ENOT_FOUND
         else if inner.location + inner.length >
            outer.location + outer.length then mk_error_t.MK_ENOT_FOUND
         else mk_error_t.MK_ESUCCESS) := by
  have hsz : MK_VM_SIZE_MAX = 2 ^ 64 - 1 := rfl
  have hc1 : ¬ (MK_VM_SIZE_MAX - outer.length < outer.location) := by
    rw [hsz]; omega
  have hc2 : ¬ (MK_VM_SIZE_MAX - inner.length < inner.location) := by
    rw [hsz]; omega
  have hm1 : (outer.location + outer.length) % 2 ^ 64 =
      outer.location + outer.length := Nat.mod_eq_of_lt ho
  have hm2 : (inner.location + inner.length) % 2 ^ 64 =
      inner.location + inner.length := Nat.mod_eq_of_lt hi
  simp only [mk_vm_range_contains_range, if_neg hc1, if_neg hc2, hm1, hm2]

/-- Reduction of mk_vm_range_contains_address when neither the offset
application nor the range sum overflows. -/
lemma contains_address_no_overflow (r : mk_vm_range_t) (o a : Nat)
    (hao : a + o < 2 ^ 64) (hr : r.location + r.length < 2 ^ 64) :
    mk_vm_range_contains_address r o a =
      if a + o < r.location ∨ a + o ≥ r.location + r.length then
        mk_error_t.MK_ENOT_FOUND
      else mk_error_t.MK_ESUCCESS := by
  have hmax : MK_VM_ADDRESS_MAX = 2 ^ 64 - 1 := rfl
  have hsz : MK_VM_SIZE_MAX = 2 ^ 64 - 1 := rfl
  have hc : ¬ (MK_VM_ADDRESS_MAX - o < a) := by rw [hmax]; omega
  have hc2 : ¬ (MK_VM_SIZE_MAX - r.length < r.location) := by rw [hsz]; omega
  have hm1 : (a + o) % 2 ^ 64 = a + o := Nat.mod_eq_of_lt hao
  have hm2 : (r.location + r.length) % 2 ^ 64 = r.location + r.length :=
    Nat.mod_eq_of_lt hr
  simp only [mk_vm_range_contains_address, mk_vm_address_apply_offset,
    if_neg hc, hm1, hm2, if_neg hc2]

/-- C1: mk_vm_address_apply_offset succeeds iff the mathematical sum
a + o is at most MK_VM_ADDRESS_MAX, and on success the value stored
through the result pointer is exactly a + o. -/
theorem apply_offset_exact_sum (a o : Nat) (ha : a < 2 ^ 64) (ho : o < 2 ^ 64) :
    ((∃ r, mk_vm_address_apply_offset a o = .ok r) ↔ a + o ≤ MK_VM_ADDRESS_MAX) ∧
    (∀ r, mk_vm_address_apply_offset a o = .ok r → r = a + o) := by
  have hmax : MK_VM_ADDRESS_MAX = 2 ^ 64 - 1 := rfl
  by_cases hc : MK_VM_ADDRESS_MAX - o < a
  · simp only [mk_vm_address_apply_offset, if_pos hc]
    constructor
    · constructor
      · rintro ⟨r, hr⟩; cases hr
      · intro hle; rw [hmax] at hc; omega
    · intro r hr; cases hr
  · simp only [mk_vm_address_apply_offset, if_neg hc]
    rw [hmax] at hc
    constructor
    · constructor
      · intro _; omega
      · intro _; exact ⟨_, rfl⟩
    · intro r hr
      have h2 : (a + o) % 2 ^ 64 = r := by injection hr
      omega

/-- C1 witness at a = 5, o = 7. -/
theorem apply_offset_exact_sum_witness :
    ((∃ r, mk_vm_address_apply_offset 5 7 = .ok r) ↔ 5 + 7 ≤ MK_VM_ADDRESS_MAX) ∧
    (∀ r, mk_vm_address_apply_offset 5 7 = .ok r → r = 5 + 7) :=
  apply_offset_exact_sum 5 7 (by norm_num) (by norm_num)

/-- C6: mk_vm_address_substract fails with Underflow iff b > a, otherwise
it returns exactly a - b; and whenever it succeeds, mk_vm_address_add of
the difference and b succeeds and returns a. -/
theorem substract_underflow_and_roundtrip (a b : Nat)
    (ha : a < 2 ^ 64) (hb : b < 2 ^ 64) :
    (mk_vm_address_substract a b = .error .MK_EUNDERFLOW ↔ b > a) ∧
    (b ≤ a → mk_vm_address_substract a b = .ok (a - b)) ∧
    (∀ d, mk_vm_address_substract a b = .ok d → mk_vm_address_add d b = .ok a) := by
  have hmax : MK_VM_ADDRESS_MAX = 2 ^ 64 - 1 := rfl
  refine ⟨?_, ?_, ?_⟩
  · by_cases hc : b > a
    · simp only [mk_vm_address_substract, if_pos hc]
      simpa using hc
    · simp only [mk_vm_address_substract, if_neg hc]
      constructor
      · intro h; cases h
      · intro h; exact absurd h hc
  · intro hle
    simp only [mk_vm_address_substract, if_neg (Nat.not_lt_of_le hle)]
  · intro d hd
    by_cases hc : b > a
    · simp only [mk_vm_address_substract, if_pos hc] at hd; cases hd
    · simp only [mk_vm_address_substract, if_neg hc] at hd
      have hd2 : a - b = d := by injection hd
      have hc2 : ¬ (MK_VM_ADDRESS_MAX - b < d) := by rw [hmax]; omega
      simp only [mk_vm_address_add, if_neg hc2]
      have h3 : (d + b) % 2 ^ 64 = a := by omega
      rw [h3]

/-- C6 witness at a = 9, b = 4. -/
theorem substract_underflow_and_roundtrip_witness :
    (mk_vm_address_substract 9 4 = .error .MK_EUNDERFLOW ↔ 4 > 9) ∧
    (4 ≤ 9 → mk_vm_address_substract 9 4 = .ok (9 - 4)) ∧
    (∀ d, mk_vm_address_substract 9 4 = .ok d → mk_vm_address_add d 4 = .ok 9) :=
  substract_underflow_and_roundtrip 9 4 (by norm_num) (by norm_num)

/-- C2: with no overflow in either range, strict containment succeeds iff
the inner range is fully enclosed in the outer one; in particular
(0,10) does not contain (0,11) strictly but contains (0,10) exactly. -/
theorem contains_range_strict_spec (outer inner : mk_vm_range_t)
    (ho : outer.location + outer.length ≤ MK_VM_SIZE_MAX)
    (hi : inner.location + inner.length ≤ MK_VM_SIZE_MAX) :
    (mk_vm_range_contains_range outer inner false = .MK_ESUCCESS ↔
      (inner.location ≥ outer.location ∧
        inner.location + inner.length ≤ outer.location + outer.length)) ∧
    mk_vm_range_contains_range (mk_vm_range_make 0 10) (mk_vm_range_make 0 11)
      false = .MK_ENOT_FOUND ∧
    mk_vm_range_contains_range (mk_vm_range_make 0 10) (mk_vm_range_make 0 10)
      false = .MK_ESUCCESS := by
  have hsz : MK_VM_SIZE_MAX = 2 ^ 64 - 1 := rfl
  rw [hsz] at ho hi
  refine ⟨?_, by decide, by decide⟩
  rw [contains_range_no_overflow outer inner false (by omega) (by omega)]
  rw [if_neg Bool.false_ne_true]
  by_cases h1 : inner.location < outer.location
  · rw [if_pos h1]
    exact ⟨(fun h => nomatch h), (fun h => by omega)⟩
  · rw [if_neg h1]
    by_cases h2 : inner.location + inner.length > outer.location + outer.length
    · rw [if_pos h2]
      exact ⟨(fun h => nomatch h), (fun h => by omega)⟩
    · rw [if_neg h2]
      exact ⟨(fun _ => by omega), (fun _ => rfl)⟩

/-- C2 witness at outer = (0,10), inner = (2,3). -/
theorem contains_range_strict_spec_witness :
    (mk_vm_range_contains_range (mk_vm_range_make 0 10) (mk_vm_range_make 2 3)
        false = .MK_ESUCCESS ↔
      ((mk_vm_range_make 2 3).location ≥ (mk_vm_range_make 0 10).location ∧
        (mk_vm_range_make 2 3).location + (mk_vm_range_make 2 3).length ≤
          (mk_vm_range_make 0 10).location + (mk_vm_range_make 0 10).length)) ∧
    mk_vm_range_contains_range (mk_vm_range_make 0 10) (mk_vm_range_make 0 11)
      false = .MK_ENOT_FOUND ∧
    mk_vm_range_contains_range (mk_vm_range_make 0 10) (mk_vm_range_make 0 10)
      false = .MK_ESUCCESS :=
  contains_range_strict_spec (mk_vm_range_make 0 10) (mk_vm_range_make 2 3)
    (by decide) (by decide)

/-- C3: with no overflow in either range, partial containment returns
NotFound exactly when the inner range ends strictly before the outer
starts or begins strictly after the outer ends, and succeeds otherwise;
in particular (0,10) partially contains (5,100) but not (20,5). -/
theorem contains_range_partial_spec (outer inner : mk_vm_range_t)
    (ho : outer.location + outer.length ≤ MK_VM_SIZE_MAX)
    (hi : inner.location + inner.length ≤ MK_VM_SIZE_MAX) :
    (mk_vm_range_contains_range outer inner true = .MK_ENOT_FOUND ↔
      ((inner.location < outer.location ∧
          inner.location + inner.length < outer.location) ∨
        inner.location > outer.location + outer.length)) ∧
    (mk_vm_range_contains_range outer inner true ≠ .MK_ENOT_FOUND →
      mk_vm_range_contains_range outer inner true = .MK_ESUCCESS) ∧
    mk_vm_range_contains_range (mk_vm_range_make 0 10) (mk_vm_range_make 5 100)
      true = .MK_ESUCCESS ∧
    mk_vm_range_contains_range (mk_vm_range_make 0 10) (mk_vm_range_make 20 5)
      true = .MK_ENOT_FOUND := by
  have hsz : MK_VM_SIZE_MAX = 2 ^ 64 - 1 := rfl
  rw [hsz] at ho hi
  have hred := contains_range_no_overflow outer inner true (by omega) (by omega)
  rw [if_pos rfl] at hred
  refine ⟨?_, ?_, by decide, by decide⟩
  · rw [hred]
    by_cases h1 : inner.location < outer.location ∧
        inner.location + inner.length < outer.location
    · rw [if_pos h1]
      exact ⟨(fun _ => Or.inl h1), (fun _ => rfl)⟩
    · rw [if_neg h1]
      by_cases h2 : inner.location > outer.location + outer.length
      · rw [if_pos h2]
        exact ⟨(fun _ => Or.inr h2), (fun _ => rfl)⟩
      · rw [if_neg h2]
        constructor
        · intro h; cases h
        · intro h
          cases h with
          | inl h => exact absurd h h1
          | inr h => exact absurd h h2
  · rw [hred]
    by_cases h1 : inner.location < outer.location ∧
        inner.location + inner.length < outer.location
    · rw [if_pos h1]
      intro h; exact absurd rfl h
    · rw [if_neg h1]
      by_cases h2 : inner.location > outer.location + outer.length
      · rw [if_pos h2]
        intro h; exact absurd rfl h
      · rw [if_neg h2]
        intro _; rfl

/-- C3 witness at outer = (0,10), inner = (5,100). -/
theorem contains_range_partial_spec_witness :
    (mk_vm_range_contains_range (mk_vm_range_make 0 10) (mk_vm_range_make 5 100)
        true = .MK_ENOT_FOUND ↔
      (((mk_vm_range_make 5 100).location < (mk_vm_range_make 0 10).location ∧
          (mk_vm_range_make 5 100).location + (mk_vm_range_make 5 100).length <
            (mk_vm_range_make 0 10).location) ∨
        (mk_vm_range_make 5 100).location >
          (mk_vm_range_make 0 10).location + (mk_vm_range_make 0 10).length)) ∧
    (mk_vm_range_contains_range (mk_vm_range_make 0 10) (mk_vm_range_make 5 100)
        true ≠ .MK_ENOT_FOUND →
      mk_vm_range_contains_range (mk_vm_range_make 0 10) (mk_vm_range_make 5 100)
        true = .MK_ESUCCESS) ∧
    mk_vm_range_contains_range (mk_vm_range_make 0 10) (mk_vm_range_make 5 100)
      true = .MK_ESUCCESS ∧
    mk_vm_range_contains_range (mk_vm_range_make 0 10) (mk_vm_range_make 20 5)
      true = .MK_ENOT_FOUND :=
  contains_range_partial_spec (mk_vm_range_make 0 10) (mk_vm_range_make 5 100)
    (by decide) (by decide)

/-- C9: in partial mode an inner range exactly adjacent to the outer
range's end (inner.location = outer.location + outer.length) is accepted,
even though the two share no address, because the rejection test is the
strict inner.location > outer.location + outer.length. -/
theorem contains_range_partial_adjacent (outer inner : mk_vm_range_t)
    (ho : outer.location + outer.length ≤ MK_VM_SIZE_MAX)
    (hi : inner.location + inner.length ≤ MK_VM_SIZE_MAX)
    (hadj : inner.location = outer.location + outer.length) :
    mk_vm_range_contains_range outer inner true = .MK_ESUCCESS := by
  have hsz : MK_VM_SIZE_MAX = 2 ^ 64 - 1 := rfl
  rw [hsz] at ho hi
  rw [contains_range_no_overflow outer inner true (by omega) (by omega)]
  rw [if_pos rfl]
  have h1 : ¬ (inner.location < outer.location ∧
      inner.location + inner.length < outer.location) := by omega
  have h2 : ¬ (inner.location > outer.location + outer.length) := by omega
  rw [if_neg h1, if_neg h2]

/-- C9 witness at outer = (0,10), inner = (10,5). -/
theorem contains_range_partial_adjacent_witness :
    mk_vm_range_contains_range (mk_vm_range_make 0 10) (mk_vm_range_make 10 5)
      true = .MK_ESUCCESS :=
  contains_range_partial_adjacent (mk_vm_range_make 0 10) (mk_vm_range_make 10 5)
    (by decide) (by decide) (by decide)

/-- C4: with no overflow of a + o or of the range sum,
mk_vm_range_contains_address succeeds iff location ≤ a + o <
location + length and otherwise returns NotFound; boundary examples for
r = (10,5), and the NotFound result for every length-0 range. -/
theorem contains_address_boundary_spec (r : mk_vm_range_t) (o a : Nat)
    (hao : a + o ≤ MK_VM_ADDRESS_MAX)
    (hr : r.location + r.length ≤ MK_VM_SIZE_MAX) :
    (mk_vm_range_contains_address r o a = .MK_ESUCCESS ↔
      (r.location ≤ a + o ∧ a + o < r.location + r.length)) ∧
    (mk_vm_range_contains_address r o a ≠ .MK_ESUCCESS →
      mk_vm_range_contains_address r o a = .MK_ENOT_FOUND) ∧
    mk_vm_range_contains_address (mk_vm_range_make 10 5) 0 10 = .MK_ESUCCESS ∧
    mk_vm_range_contains_address (mk_vm_range_make 10 5) 0 15 = .MK_ENOT_FOUND ∧
    mk_vm_range_contains_address (mk_vm_range_make 10 5) 0 9 = .MK_ENOT_FOUND ∧
    (r.length = 0 → mk_vm_range_contains_address r o a = .MK_ENOT_FOUND) := by
  have hmax : MK_VM_ADDRESS_MAX = 2 ^ 64 - 1 := rfl
  have hsz : MK_VM_SIZE_MAX = 2 ^ 64 - 1 := rfl
  rw [hmax] at hao
  rw [hsz] at hr
  have hred := contains_address_no_overflow r o a (by omega) (by omega)
  refine ⟨?_, ?_, by decide, by decide, by decide, ?_⟩
  · rw [hred]
    by_cases h1 : a + o < r.location ∨ a + o ≥ r.location + r.length
    · rw [if_pos h1]
      exact ⟨(fun h => nomatch h), (fun h => by omega)⟩
    · rw [if_neg h1]
      exact ⟨(fun _ => by omega), (fun _ => rfl)⟩
  · rw [hred]
    by_cases h1 : a + o < r.location ∨ a + o ≥ r.location + r.length
    · rw [if_pos h1]
      intro _; rfl
    · rw [if_neg h1]
      intro h; exact absurd rfl h
  · intro hlen
    rw [hred, if_pos (by omega)]

/-- C4 witness at r = (10,5), o = 0, a = 12. -/
theorem contains_address_boundary_spec_witness :
    (mk_vm_range_contains_address (mk_vm_range_make 10 5) 0 12 = .MK_ESUCCESS ↔
      ((mk_vm_range_make 10 5).location ≤ 12 + 0 ∧
        12 + 0 < (mk_vm_range_make 10 5).location +
          (mk_vm_range_make 10 5).length)) ∧
    (mk_vm_range_contains_address (mk_vm_range_make 10 5) 0 12 ≠ .MK_ESUCCESS →
      mk_vm_range_contains_address (mk_vm_range_make 10 5) 0 12 =
        .MK_ENOT_FOUND) ∧
    mk_vm_range_contains_address (mk_vm_range_make 10 5) 0 10 = .MK_ESUCCESS ∧
    mk_vm_range_contains_address (mk_vm_range_make 10 5) 0 15 = .MK_ENOT_FOUND ∧
    mk_vm_range_contains_address (mk_vm_range_make 10 5) 0 9 = .MK_ENOT_FOUND ∧
    ((mk_vm_range_make 10 5).length = 0 →
      mk_vm_range_contains_address (mk_vm_range_make 10 5) 0 12 =
        .MK_ENOT_FOUND) :=
  contains_address_boundary_spec (mk_vm_range_make 10 5) 0 12
    (by decide) (by decide)

/-- C5: whenever r.location + r.length overflows,
mk_vm_range_contains_address returns Overflow, regardless of the offset
and address supplied (also when a + o itself overflows, in which case the
Overflow comes from the offset application). -/
theorem contains_address_overflow_precedence (r : mk_vm_range_t) (o a : Nat)
    (_ha : a < 2 ^ 64) (_ho : o < 2 ^ 64)
    (_hloc : r.location < 2 ^ 64) (hlen : r.length < 2 ^ 64)
    (hover : r.location + r.length > MK_VM_SIZE_MAX) :
    mk_vm_range_contains_address r o a = .MK_EOVERFLOW := by
  have hsz : MK_VM_SIZE_MAX = 2 ^ 64 - 1 := rfl
  rw [hsz] at hover
  by_cases hc : MK_VM_ADDRESS_MAX - o < a
  · simp only [mk_vm_range_contains_address, mk_vm_address_apply_offset,
      if_pos hc]
  · have hc2 : MK_VM_SIZE_MAX - r.length < r.location := by rw [hsz]; omega
    simp only [mk_vm_range_contains_address, mk_vm_address_apply_offset,
      if_neg hc, if_pos hc2]

/-- C5 witness at r = (2^64 - 1, 2), o = 0, a = 0. -/
theorem contains_address_overflow_precedence_witness :
    mk_vm_range_contains_address (mk_vm_range_make (2 ^ 64 - 1) 2) 0 0 =
      .MK_EOVERFLOW :=
  contains_address_overflow_precedence (mk_vm_range_make (2 ^ 64 - 1) 2) 0 0
    (by decide) (by decide) (by decide) (by decide) (by decide)

/-- struct _mk_type_vtable (declared in the missing core_internal.h, root
instance at core.c:267-273): an optional display name, an id standing for
the static descriptor's distinct address (two distinct static descriptors
are never pointer-equal), and the super pointer.  The base constructor is
a node whose super pointer is NULL, so every chain is finite and ends at
such a node, mirroring the strictly tree-shaped static hierarchy. -/
inductive mk_type_vtable where
  | base (name : Option String) (id : Nat)
  | derived (name : Option String) (id : Nat) (super : mk_type_vtable)
  deriving DecidableEq

/-- The super field of a vtable (NULL, i.e. none, for base nodes). -/
def mk_type_vtable.super : mk_type_vtable → Option mk_type_vtable
  | .base _ _ => none
  | .derived _ _ p => some p

/-- _mk_type_class (core.c:267-273): the root descriptor, with
super = NULL and name = "". -/
def _mk_type_class : mk_type_vtable := .base (some "") 0

/-- _mk_runtime_base_t: a typed handle exposes exactly its vtable tag. -/
structure mk_runtime_base where
  vtable : mk_type_vtable
  deriving DecidableEq

/-- The loop of mk_type_is_kind_of (core.c:289-297) over a vtable chain:
compare the current node against the sought type by pointer, then step to
super, stopping at NULL. -/
def is_kind_of_chain : mk_type_vtable → mk_type_vtable → Bool
  | .base n i, ty => decide (mk_type_vtable.base n i = ty)
  | .derived n i p, ty =>
      decide (mk_type_vtable.derived n i p = ty) || is_kind_of_chain p ty

/-- mk_type_is_kind_of (core.c:289-297). -/
def mk_type_is_kind_of (mk : mk_runtime_base) (ty : mk_type_vtable) : Bool :=
  is_kind_of_chain mk.vtable ty

/-- mk_type_is (core.c:281-285): exact pointer identity of the tag. -/
def mk_type_is (mk : mk_runtime_base) (ty : mk_type_vtable) : Bool :=
  decide (mk.vtable = ty)

/-- The final node of a descriptor chain: follow super until NULL. -/
def chain_end : mk_type_vtable → mk_type_vtable
  | .base n i => .base n i
  | .derived _ _ p => chain_end p

/-- Number of nodes on the chain from a descriptor to its chain end. -/
def chain_size : mk_type_vtable → Nat
  | .base _ _ => 1
  | .derived _ _ p => chain_size p + 1

/-- The chain walk always finds the end of its own chain. -/
lemma is_kind_of_chain_end (v : mk_type_vtable) :
    is_kind_of_chain v (chain_end v) = true := by
  induction v with
  | base n i => simp [is_kind_of_chain, chain_end]
  | derived n i p ih => simp [is_kind_of_chain, chain_end, ih]

/-- The chain walk always finds the starting descriptor itself. -/
lemma is_kind_of_chain_self (v : mk_type_vtable) :
    is_kind_of_chain v v = true := by
  cases v with
  | base n i => simp [is_kind_of_chain]
  | derived n i p => simp [is_kind_of_chain]

/-- Anything found on a chain has a chain at most as long. -/
lemma is_kind_of_chain_size {v ty : mk_type_vtable}
    (h : is_kind_of_chain v ty = true) : chain_size ty ≤ chain_size v := by
  induction v with
  | base n i =>
    simp only [is_kind_of_chain, decide_eq_true_eq] at h
    rw [← h]
  | derived n i p ih =>
    simp only [is_kind_of_chain, Bool.or_eq_true, decide_eq_true_eq] at h
    cases h with
    | inl h => rw [← h]
    | inr h => exact Nat.le_trans (ih h) (Nat.le_succ _)

/-- C7: for a handle whose descriptor chain ends at the root,
mk_type_is_kind_of is true for the root and for the handle's own tag, and
for sibling descriptors d1 ≠ d2 with the same parent, a handle tagged d1
is not a kind of d2. -/
theorem is_kind_of_chain_laws (h : mk_runtime_base) (d1 d2 : mk_type_vtable)
    (hroot : chain_end h.vtable = _mk_type_class)
    (hsib : d1.super = d2.super) (hne : d1 ≠ d2) :
    mk_type_is_kind_of h _mk_type_class = true ∧
    mk_type_is_kind_of h h.vtable = true ∧
    mk_type_is_kind_of { vtable := d1 } d2 = false := by
  refine ⟨?_, ?_, ?_⟩
  · rw [mk_type_is_kind_of, ← hroot]
    exact is_kind_of_chain_end h.vtable
  · exact is_kind_of_chain_self h.vtable
  · cases d1 with
    | base n i =>
      cases d2 with
      | base m j =>
        simp only [mk_type_is_kind_of, is_kind_of_chain]
        exact decide_eq_false hne
      | derived m j q =>
        simp [mk_type_vtable.super] at hsib
    | derived n i p =>
      cases d2 with
      | base m j =>
        simp [mk_type_vtable.super] at hsib
      | derived m j q =>
        simp only [mk_type_vtable.super, Option.some.injEq] at hsib
        subst hsib
        simp only [mk_type_is_kind_of, is_kind_of_chain, Bool.or_eq_false_iff]
        constructor
        · exact decide_eq_false hne
        · cases hb : is_kind_of_chain p (mk_type_vtable.derived m j p) with
          | false => rfl
          | true =>
            have hsz := is_kind_of_chain_size hb
            simp only [chain_size] at hsz
            omega

/-- C7 witness: a child of the root, and two distinct root-parented
siblings. -/
theorem is_kind_of_chain_laws_witness :
    mk_type_is_kind_of
      { vtable := mk_type_vtable.derived (some "child") 1 _mk_type_class }
      _mk_type_class = true ∧
    mk_type_is_kind_of
      { vtable := mk_type_vtable.derived (some "child") 1 _mk_type_class }
      (mk_type_vtable.derived (some "child") 1 _mk_type_class) = true ∧
    mk_type_is_kind_of
      { vtable := mk_type_vtable.derived (some "a") 2 _mk_type_class }
      (mk_type_vtable.derived (some "b") 3 _mk_type_class) = false :=
  is_kind_of_chain_laws
    { vtable := mk_type_vtable.derived (some "child") 1 _mk_type_class }
    (mk_type_vtable.derived (some "a") 2 _mk_type_class)
    (mk_type_vtable.derived (some "b") 3 _mk_type_class)
    (by decide) (by decide) (by decide)

/-- Modelled from the spec: OSSwapInt16 is the external (libkern) 16-bit
byte-reversal used by _mk_swap16 (core.c:187-188); it exchanges the two
bytes of the value. -/
def OSSwapInt16 (v : Nat) : Nat := (v % 2 ^ 8) * 2 ^ 8 + v / 2 ^ 8 % 2 ^ 8

/-- Modelled from the spec: OSSwapInt32, the external 32-bit byte
reversal used by _mk_swap32 (core.c:195-196). -/
def OSSwapInt32 (v : Nat) : Nat :=
  (v % 2 ^ 8) * 2 ^ 24 + (v / 2 ^ 8 % 2 ^ 8) * 2 ^ 16 +
  (v / 2 ^ 16 % 2 ^ 8) * 2 ^ 8 + v / 2 ^ 24 % 2 ^ 8

/-- Modelled from the spec: OSSwapInt64, the external 64-bit byte
reversal used by _mk_swap64 (core.c:203-204). -/
def OSSwapInt64 (v : Nat) : Nat :=
  (v % 2 ^ 8) * 2 ^ 56 + (v / 2 ^ 8 % 2 ^ 8) * 2 ^ 48 +
  (v / 2 ^ 16 % 2 ^ 8) * 2 ^ 40 + (v / 2 ^ 24 % 2 ^ 8) * 2 ^ 32 +
  (v / 2 ^ 32 % 2 ^ 8) * 2 ^ 24 + (v / 2 ^ 40 % 2 ^ 8) * 2 ^ 16 +
  (v / 2 ^ 48 % 2 ^ 8) * 2 ^ 8 + v / 2 ^ 56 % 2 ^ 8

/-- _mk_swap16 (core.c:187-188). -/
def _mk_swap16 (input : Nat) : Nat := OSSwapInt16 input

/-- _mk_nswap16 (core.c:191-192). -/
def _mk_nswap16 (input : Nat) : Nat := input

/-- _mk_swap32 (core.c:195-196). -/
def _mk_swap32 (input : Nat) : Nat := OSSwapInt32 input

/-- _mk_nswap32 (core.c:199-200). -/
def _mk_nswap32 (input : Nat) : Nat := input

/-- _mk_swap64 (core.c:203-204). -/
def _mk_swap64 (input : Nat) : Nat := OSSwapInt64 input

/-- _mk_nswap64 (core.c:207-208). -/
def _mk_nswap64 (input : Nat) : Nat := input

/-- One iteration of the loop body of _mk_swap (core.c:214-218): exchange
the elements at positions i and length - i - 1. -/
def swapStep (len i : Nat) (l : List UInt8) : List UInt8 :=
  let temp := l.getD i 0
  (l.set i (l.getD (len - i - 1) 0)).set (len - i - 1) temp

/-- The loop of _mk_swap run for iterations i = 0 .. k - 1 (the i = k - 1
step applied last, as in the C for loop). -/
def swapUpTo (len : Nat) : Nat → List UInt8 → List UInt8
  | 0, l => l
  | k + 1, l => swapStep len k (swapUpTo len k l)

/-- _mk_swap (core.c:211-221): in-place byte reversal of a buffer,
modelled on a list of bytes whose length is the supplied length; the C
function returns the mutated buffer, modelled by returning the list. -/
def _mk_swap (input : List UInt8) : List UInt8 :=
  swapUpTo input.length (input.length / 2) input

/-- _mk_nswap (core.c:224-225): identity on the buffer. -/
def _mk_nswap (input : List UInt8) : List UInt8 := input

/-- Modelled from the spec: mk_byteorder_t (declared in the missing
header) is a table of four operations: 16/32/64-bit value swaps and a
generic buffer swap. -/
structure mk_byteorder_t where
  swap16 : Nat → Nat
  swap32 : Nat → Nat
  swap64 : Nat → Nat
  swap_any : List UInt8 → List UInt8

/-- mk_byteorder_direct (core.c:227-232). -/
def mk_byteorder_direct : mk_byteorder_t :=
  { swap16 := _mk_nswap16, swap32 := _mk_nswap32, swap64 := _mk_nswap64,
    swap_any := _mk_nswap }

/-- mk_byteorder_swapped (core.c:234-239). -/
def mk_byteorder_swapped : mk_byteorder_t :=
  { swap16 := _mk_swap16, swap32 := _mk_swap32, swap64 := _mk_swap64,
    swap_any := _mk_swap }

/-- Byte reversal on an explicit two-byte decomposition. -/
lemma OSSwapInt16_digits (a b : Nat) (ha : a < 2 ^ 8) (hb : b < 2 ^ 8) :
    OSSwapInt16 (a * 2 ^ 8 + b) = b * 2 ^ 8 + a := by
  unfold OSSwapInt16; omega

/-- Byte reversal on an explicit four-byte decomposition. -/
lemma OSSwapInt32_digits (a b c d : Nat)
    (ha : a < 2 ^ 8) (hb : b < 2 ^ 8) (hc : c < 2 ^ 8) (hd : d < 2 ^ 8) :
    OSSwapInt32 (a * 2 ^ 24 + b * 2 ^ 16 + c * 2 ^ 8 + d) =
      d * 2 ^ 24 + c * 2 ^ 16 + b * 2 ^ 8 + a := by
  unfold OSSwapInt32; omega

set_option maxHeartbeats 2000000 in
/-- Byte reversal on an explicit eight-byte decomposition. -/
lemma OSSwapInt64_digits (a b c d e f g h : Nat)
    (ha : a < 2 ^ 8) (hb : b < 2 ^ 8) (hc : c < 2 ^ 8) (hd : d < 2 ^ 8)
    (he : e < 2 ^ 8) (hf : f < 2 ^ 8) (hg : g < 2 ^ 8) (hh : h < 2 ^ 8) :
    OSSwapInt64 (a * 2 ^ 56 + b * 2 ^ 48 + c * 2 ^ 40 + d * 2 ^ 32 +
        e * 2 ^ 24 + f * 2 ^ 16 + g * 2 ^ 8 + h) =
      h * 2 ^ 56 + g * 2 ^ 48 + f * 2 ^ 40 + e * 2 ^ 32 +
        d * 2 ^ 24 + c * 2 ^ 16 + b * 2 ^ 8 + a := by
  unfold OSSwapInt64; omega

/-- Every 16-bit value splits into two bytes. -/
lemma nat_digits16 (v : Nat) (h : v < 2 ^ 16) :
    ∃ a b, a < 2 ^ 8 ∧ b < 2 ^ 8 ∧ v = a * 2 ^ 8 + b :=
  ⟨v / 2 ^ 8 % 2 ^ 8, v % 2 ^ 8, by omega, by omega, by omega⟩

/-- Every 32-bit value splits into four bytes. -/
lemma nat_digits32 (v : Nat) (h : v < 2 ^ 32) :
    ∃ a b c d, a < 2 ^ 8 ∧ b < 2 ^ 8 ∧ c < 2 ^ 8 ∧ d < 2 ^ 8 ∧
      v = a * 2 ^ 24 + b * 2 ^ 16 + c * 2 ^ 8 + d :=
  ⟨v / 2 ^ 24 % 2 ^ 8, v / 2 ^ 16 % 2 ^ 8, v / 2 ^ 8 % 2 ^ 8, v % 2 ^ 8,
    by omega, by omega, by omega, by omega, by omega⟩

/-- Every 64-bit value splits into eight bytes. -/
lemma nat_digits64 (v : Nat) (h : v < 2 ^ 64) :
    ∃ a b c d e f g k, a < 2 ^ 8 ∧ b < 2 ^ 8 ∧ c < 2 ^ 8 ∧ d < 2 ^ 8 ∧
      e < 2 ^ 8 ∧ f < 2 ^ 8 ∧ g < 2 ^ 8 ∧ k < 2 ^ 8 ∧
      v = a * 2 ^ 56 + b * 2 ^ 48 + c * 2 ^ 40 + d * 2 ^ 32 +
        e * 2 ^ 24 + f * 2 ^ 16 + g * 2 ^ 8 + k :=
  ⟨v / 2 ^ 56 % 2 ^ 8, v / 2 ^ 48 % 2 ^ 8, v / 2 ^ 40 % 2 ^ 8,
    v / 2 ^ 32 % 2 ^ 8, v / 2 ^ 24 % 2 ^ 8, v / 2 ^ 16 % 2 ^ 8,
    v / 2 ^ 8 % 2 ^ 8, v % 2 ^ 8,
    by omega, by omega, by omega, by omega, by omega, by omega, by omega,
    by omega, by omega⟩

/-- C8: each of the swapped byte order's value swaps is an involution on
values of its width, and each of the direct byte order's value swaps is
the identity. -/
theorem byteorder_swap_involution (v16 v32 v64 : Nat)
    (h16 : v16 < 2 ^ 16) (h32 : v32 < 2 ^ 32) (h64 : v64 < 2 ^ 64) :
    mk_byteorder_swapped.swap16 (mk_byteorder_swapped.swap16 v16) = v16 ∧
    mk_byteorder_swapped.swap32 (mk_byteorder_swapped.swap32 v32) = v32 ∧
    mk_byteorder_swapped.swap64 (mk_byteorder_swapped.swap64 v64) = v64 ∧
    mk_byteorder_direct.swap16 v16 = v16 ∧
    mk_byteorder_direct.swap32 v32 = v32 ∧
    mk_byteorder_direct.swap64 v64 = v64 := by
  refine ⟨?_, ?_, ?_, rfl, rfl, rfl⟩
  · show _mk_swap16 (_mk_swap16 v16) = v16
    obtain ⟨a, b, ha, hb, rfl⟩ := nat_digits16 v16 h16
    unfold _mk_swap16
    rw [OSSwapInt16_digits a b ha hb, OSSwapInt16_digits b a hb ha]
  · show _mk_swap32 (_mk_swap32 v32) = v32
    obtain ⟨a, b, c, d, ha, hb, hc, hd, rfl⟩ := nat_digits32 v32 h32
    unfold _mk_swap32
    rw [OSSwapInt32_digits a b c d ha hb hc hd,
      OSSwapInt32_digits d c b a hd hc hb ha]
  · show _mk_swap64 (_mk_swap64 v64) = v64
    obtain ⟨a, b, c, d, e, f, g, k, ha, hb, hc, hd, he, hf, hg, hk, rfl⟩ :=
      nat_digits64 v64 h64
    unfold _mk_swap64
    rw [OSSwapInt64_digits a b c d e f g k ha hb hc hd he hf hg hk,
      OSSwapInt64_digits k g f e d c b a hk hg hf he hd hc hb ha]

/-- C8 witness at v16 = 0x1234, v32 = 0x12345678,
v64 = 0x123456789abcdef0. -/
theorem byteorder_swap_involution_witness :
    mk_byteorder_swapped.swap16 (mk_byteorder_swapped.swap16 4660) = 4660 ∧
    mk_byteorder_swapped.swap32 (mk_byteorder_swapped.swap32 305419896) =
      305419896 ∧
    mk_byteorder_swapped.swap64
      (mk_byteorder_swapped.swap64 1311768467463790320) =
      1311768467463790320 ∧
    mk_byteorder_direct.swap16 4660 = 4660 ∧
    mk_byteorder_direct.swap32 305419896 = 305419896 ∧
    mk_byteorder_direct.swap64 1311768467463790320 = 1311768467463790320 :=
  byteorder_swap_involution 4660 305419896 1311768467463790320
    (by norm_num) (by norm_num) (by norm_num)

/-- A swap step leaves the buffer length unchanged. -/
lemma swapStep_length (len i : Nat) (l : List UInt8) :
    (swapStep len i l).length = l.length := by
  simp [swapStep]

/-- The swap loop leaves the buffer length unchanged. -/
lemma swapUpTo_length (len k : Nat) (l : List UInt8) :
    (swapUpTo len k l).length = l.length := by
  induction k with
  | zero => rfl
  | succ k ih => simp only [swapUpTo, swapStep_length, ih]

/-- getD after set, at an in-bounds index. -/
lemma getD_set_lt (l : List UInt8) (i j : Nat) (v d : UInt8)
    (hj : j < l.length) :
    (l.set i v).getD j d = if i = j then v else l.getD j d := by
  have hj2 : j < (l.set i v).length := by rw [List.length_set]; exact hj
  rw [List.getD_eq_getElem _ _ hj2, List.getElem_set]
  by_cases hij : i = j
  · rw [if_pos hij, if_pos hij]
  · rw [if_neg hij, if_neg hij, List.getD_eq_getElem _ _ hj]

/-- Loop invariant of _mk_swap: after the first k iterations the first k
and last k positions hold the mirrored elements and the middle is still
untouched. -/
lemma swapUpTo_getD (len : Nat) (k : Nat) :
    2 * k ≤ len → ∀ (l : List UInt8), l.length = len → ∀ j, j < len →
      (swapUpTo len k l).getD j 0 =
        if j < k ∨ len - k ≤ j then l.getD (len - 1 - j) 0
        else l.getD j 0 := by
  induction k with
  | zero =>
    intro hk l hlen j hj
    rw [if_neg (by omega)]
    rfl
  | succ k ih =>
    intro hk l hlen j hj
    have ih2 := ih (by omega) l hlen
    have hmlen : (swapUpTo len k l).length = len := by
      rw [swapUpTo_length, hlen]
    show (swapStep len k (swapUpTo len k l)).getD j 0 = _
    simp only [swapStep]
    rw [getD_set_lt _ _ _ _ _ (by rw [List.length_set, hmlen]; exact hj)]
    rw [getD_set_lt _ _ _ _ _ (by rw [hmlen]; exact hj)]
    have hvk : (swapUpTo len k l).getD k 0 = l.getD k 0 := by
      rw [ih2 k (by omega), if_neg (by omega)]
    have hvk2 : (swapUpTo len k l).getD (len - k - 1) 0 =
        l.getD (len - k - 1) 0 := by
      rw [ih2 (len - k - 1) (by omega), if_neg (by omega)]
    by_cases h1 : len - k - 1 = j
    · rw [if_pos h1, hvk]
      have he : len - 1 - j = k := by omega
      rw [if_pos (by omega), he]
    · rw [if_neg h1]
      by_cases h2 : k = j
      · rw [if_pos h2, hvk2]
        have he : len - k - 1 = len - 1 - j := by omega
        rw [if_pos (by omega), he]
      · rw [if_neg h2, ih2 j hj]
        by_cases h3 : j < k ∨ len - k ≤ j
        · rw [if_pos h3, if_pos (by omega)]
        · rw [if_neg h3, if_neg (by omega)]

/-- _mk_swap reverses its buffer. -/
lemma _mk_swap_eq_reverse (l : List UInt8) : _mk_swap l = l.reverse := by
  apply List.ext_getElem
  · rw [List.length_reverse]
    exact swapUpTo_length _ _ _
  · intro n h1 h2
    have hlen : (_mk_swap l).length = l.length := swapUpTo_length _ _ _
    have hn : n < l.length := by rw [← hlen]; exact h1
    rw [List.getElem_reverse h2]
    rw [← List.getD_eq_getElem (_mk_swap l) 0 h1]
    show (swapUpTo l.length (l.length / 2) l).getD n 0 = _
    rw [swapUpTo_getD l.length (l.length / 2) (by omega) l rfl n hn]
    by_cases hc : n < l.length / 2 ∨ l.length - l.length / 2 ≤ n
    · rw [if_pos hc]
      exact List.getD_eq_getElem _ _ (by omega)
    · rw [if_neg hc]
      rw [← List.getD_eq_getElem l 0
        (show l.length - 1 - n < l.length by omega)]
      have he : l.length - 1 - n = n := by omega
      rw [he]

/-- C10: the swapped byte order's buffer swap reverses the supplied span
(returning the resulting buffer, as the C function returns its input
pointer), and applying it twice restores the original contents. -/
theorem swap_buffer_reverse_involution (l : List UInt8) :
    mk_byteorder_swapped.swap_any l = l.reverse ∧
    mk_byteorder_swapped.swap_any (mk_byteorder_swapped.swap_any l) = l := by
  constructor
  · exact _mk_swap_eq_reverse l
  · show _mk_swap (_mk_swap l) = l
    rw [_mk_swap_eq_reverse, _mk_swap_eq_reverse, List.reverse_reverse]

end MachOKit
